import Mathlib

/-!
Verification of the table-planning program (`Table_Plans.py`).

The Python source is shallowly embedded below.  Python sets of canonical
name pairs become `Finset (String × String)`; the Python `dict` of plans
becomes an insertion-ordered association list with unique keys; the
unspecified iteration order of the Python `set` of remaining people is
made explicit as a list-order parameter (`setOrd` at the planner level),
and Python's general recursion is driven by a fuel argument that is
always supplied with enough fuel at the entry point.
-/

/-- Embeds the Python `Person` class: name, sex, relations, preferred
people, and the meals the person attends. -/
structure Person where
  name : String
  sex : String
  relations : List String
  preferred : List String
  meals : List String
deriving DecidableEq, Repr

/-- A default person, used only as the (never-reached) default of `List.getD`
in positions where the Python code indexes with in-range indices. -/
def personDefault : Person := ⟨"", "", [], [], []⟩

/-- Kinds of Python exception relevant here: the `ValueError` actually
raised by `Person.__init__`, and the `InvalidAttributeError` that the
specification names (modelled from the spec; no such class exists in the
source). -/
inductive PyExn where
  | valueError (msg : String)
  | invalidAttributeError (msg : String)
deriving DecidableEq, Repr

/-- Embeds `Person.__init__`: raising becomes returning `Except.error`.
The Python code raises `ValueError(f"Invalid sex '{sex}' for person
'{name}'. Must be 'male' or 'female'.")` when `sex not in ('male','female')`. -/
def Person.make (name sex : String) (relations preferred meals : List String) :
    Except PyExn Person :=
  if sex ∈ (["male", "female"] : List String) then
    Except.ok { name := name, sex := sex, relations := relations,
                preferred := preferred, meals := meals }
  else
    Except.error (PyExn.valueError
      ("Invalid sex '" ++ sex ++ "' for person '" ++ name ++
       "'. Must be 'male' or 'female'."))

/-- True when the construction result is a failure of the kind the spec
names (`InvalidAttributeError`). -/
def isInvalidAttributeFailure (r : Except PyExn Person) : Bool :=
  match r with
  | .error (.invalidAttributeError _) => true
  | _ => false

/-- True when the construction result is any failure. -/
def isConstructionFailure (r : Except PyExn Person) : Bool :=
  match r with
  | .error _ => true
  | .ok _ => false

/-- Embeds `Person.is_related_to`. -/
def Person.is_related_to (self other : Person) : Bool :=
  self.relations.contains other.name

/-- Embeds `Person.prefers`. -/
def Person.prefers (self other : Person) : Bool :=
  self.preferred.contains other.name

/-- Scoring constant `BONUS_PREFERRED` from the source. -/
def BONUS_PREFERRED : Int := -1000

/-- Scoring constant `PENALTY_RELATION` from the source. -/
def PENALTY_RELATION : Int := 100

/-- Scoring constant `PENALTY_SEX_VIOLATION` from the source. -/
def PENALTY_SEX_VIOLATION : Int := 50

/-- Lexicographic strict comparison of character lists by code point:
the order Python's `<` uses on strings. -/
def charListLt : List Char → List Char → Bool
  | _, [] => false
  | [], _ :: _ => true
  | a :: as, b :: bs => if a < b then true else if b < a then false else charListLt as bs

/-- Python's `name1 < name2` on strings: code-point lexicographic. -/
def strLt (a b : String) : Bool := charListLt a.data b.data

/-- The canonical (lexicographically ordered) name pair, as built at each
of the three places in the source that form `(name1, name2)` with the
smaller name first. -/
def canonicalPair (name1 name2 : String) : String × String :=
  if strLt name1 name2 then (name1, name2) else (name2, name1)

/-- Embeds `are_arrangements_same`: rotation equivalence of two circular
orderings, compared by person name.  The Python code enumerates candidate
start offsets in `arr2` holding `arr1[0]`'s name and compares the full
sequence modulo the length; the guard-plus-check below is that loop. -/
def are_arrangements_same (arr1 arr2 : List Person) : Bool :=
  if arr1.length ≠ arr2.length then false
  else if arr1.length = 0 then true
  else
    (List.range arr1.length).any (fun start =>
      ((arr2.getD start personDefault).name == (arr1.getD 0 personDefault).name)
      &&
      (List.range arr1.length).all (fun i =>
        (arr1.getD i personDefault).name ==
          (arr2.getD ((start + i) % arr1.length) personDefault).name))

/-- Embeds the candidate filtering and scoring of
`_find_arrangement_backtrack` for the case where someone is already
seated: `none` is a hard exclusion (repeat neighbour, or second same-sex
adjacency), otherwise the candidate is kept with its score and the flag
saying whether seating it consumes the same-sex budget. -/
def candidateEval (last : Person) (ledger : Finset (String × String))
    (sexUsed : Bool) (p : Person) : Option (Int × Person × Bool) :=
  if canonicalPair last.name p.name ∈ ledger then none
  else if last.sex == p.sex && sexUsed then none
  else
    let causes := last.sex == p.sex
    let s1 : Int := if last.sex == p.sex then PENALTY_SEX_VIOLATION else 0
    let s2 : Int := s1 + (if last.is_related_to p || p.is_related_to last then PENALTY_RELATION else 0)
    let s3 : Int := s2 + (if last.prefers p || p.prefers last then BONUS_PREFERRED else 0)
    some (s3, p, causes)

/-- Stable insertion of a scored candidate: it goes after every
already-placed candidate with a score less than or equal to its own. -/
def insertSorted (c : Int × Person × Bool) :
    List (Int × Person × Bool) → List (Int × Person × Bool)
  | [] => [c]
  | d :: rest => if c.1 < d.1 then c :: d :: rest else d :: insertSorted c rest

/-- Stable ascending sort of candidates by score, modelling the (stable)
Python `list.sort(key=score)`. -/
def sortByScore (l : List (Int × Person × Bool)) : List (Int × Person × Bool) :=
  l.foldl (fun acc c => insertSorted c acc) []

/-- Embeds `_find_arrangement_backtrack`.  The recursion is driven by a
fuel argument; the entry point `find_arrangement` supplies fuel larger
than the recursion depth the Python code uses.  `remaining` carries the
iteration order of the Python set of not-yet-seated people; removal keeps
the relative order of the survivors.  A recursive result is accepted only
when it is a non-empty list, matching Python's truthiness test
`if found_plan:`. -/
def findArrangementBacktrack : Nat → List Person → List Person → Nat →
    List (List Person) → Finset (String × String) → Bool → Option (List Person)
  | 0, _, _, _, _, _, _ => none
  | fuel + 1, current, remaining, total, found, ledger, sexUsed =>
    if current.length = total then
      match current.head?, current.getLast? with
      | some first, some last =>
        if canonicalPair last.name first.name ∈ ledger then none
        else if last.sex == first.sex && sexUsed then none
        else if found.any (fun prev => are_arrangements_same current prev) then none
        else some current
      | _, _ => none
    else
      let cands :=
        match current.getLast? with
        | none => remaining.map (fun p => ((0 : Int), p, false))
        | some last => remaining.filterMap (candidateEval last ledger sexUsed)
      (sortByScore cands).findSome? (fun c =>
        match findArrangementBacktrack fuel (current ++ [c.2.1])
            (remaining.erase c.2.1) total found ledger (sexUsed || c.2.2) with
        | some (x :: xs) => some (x :: xs)
        | _ => none)

/-- Entry point of the search as `seat_people` calls it: empty current
arrangement, the same-sex budget not yet consumed, and enough fuel. -/
def find_arrangement (remaining : List Person) (total : Nat)
    (found : List (List Person)) (ledger : Finset (String × String)) :
    Option (List Person) :=
  findArrangementBacktrack (total + 1) [] remaining total found ledger false

/-- The list of canonical pairs the planner records for an accepted
arrangement: for each `i` the pair of `arr[i]` and `arr[(i+1) % n]`,
exactly the update loop at the end of `seat_people`. -/
def recordPairs (arr : List Person) : List (String × String) :=
  (List.range arr.length).map (fun i =>
    canonicalPair ((arr.getD i personDefault).name)
      ((arr.getD ((i + 1) % arr.length) personDefault).name))

/-- Consecutive (non-wrap) canonical pairs of a partial arrangement. -/
def consecPairs : List Person → List (String × String)
  | a :: b :: rest => canonicalPair a.name b.name :: consecPairs (b :: rest)
  | _ => []

/-- Number of consecutive (non-wrap) same-sex adjacencies. -/
def consecSameSex : List Person → Nat
  | a :: b :: rest => (if a.sex == b.sex then 1 else 0) + consecSameSex (b :: rest)
  | _ => 0

/-- Number of same-sex adjacencies of a circular arrangement, the
wrap-around pair of last and first included. -/
def sameSexWithWrap (arr : List Person) : Nat :=
  consecSameSex arr +
    (match arr.head?, arr.getLast? with
     | some a, some b => if a.sex == b.sex then 1 else 0
     | _, _ => 0)

/-- True when none of the adjacent canonical pairs of `arr` (wrap-around
included) is in the ledger. -/
def freshPairs (arr : List Person) (ledger : Finset (String × String)) : Bool :=
  (recordPairs arr).all (fun q => decide (q ∉ ledger))

/-- The planner's state: the plans dict (insertion-ordered, unique keys)
and the global set of seated neighbour pairs. -/
structure PlanState where
  plans : List (String × List (List Person))
  ledger : Finset (String × String)
deriving DecidableEq

/-- Python `dict.get(k, [])`. -/
def dgetD (d : List (String × List (List Person))) (k : String) :
    List (List Person) :=
  match d.find? (fun e => e.1 == k) with
  | some e => e.2
  | none => []

/-- Python `k in dict`. -/
def dictHas (d : List (String × List (List Person))) (k : String) : Bool :=
  d.any (fun e => e.1 == k)

/-- Python `dict[k] = v`: replace in place if the key exists, else append
the new key at the end (insertion order). -/
def dset (d : List (String × List (List Person))) (k : String)
    (v : List (List Person)) : List (String × List (List Person)) :=
  match d with
  | [] => [(k, v)]
  | e :: rest => if e.1 == k then (k, v) :: rest else e :: dset rest k v

/-- The attendees of one meal: the people whose `meals` contain it, in
registry order (the filter loop at the top of the `seat_people` body). -/
def attendeesOf (people : List Person) (meal : String) : List Person :=
  people.filter (fun p => p.meals.contains meal)

/-- Embeds one iteration of the `seat_people` loop.  `setOrd` supplies
the iteration order of the Python `set(attendees_this_meal)`; a search
result counts as found only when it is a non-empty list (Python's
`if current_best_arrangement:`). -/
def mealStep (people : List Person) (setOrd : String → List Person → List Person)
    (st : PlanState) (meal : String) : PlanState :=
  let attendees := attendeesOf people meal
  let n := attendees.length
  if n = 0 then { st with plans := dset st.plans meal [] }
  else if n = 1 then { st with plans := dset st.plans meal [attendees] }
  else
    let found := dgetD st.plans meal
    match find_arrangement (setOrd meal attendees) n found st.ledger with
    | some (x :: xs) =>
        { plans := dset st.plans meal (dgetD st.plans meal ++ [x :: xs]),
          ledger := (recordPairs (x :: xs)).foldl (fun L q => insert q L) st.ledger }
    | _ =>
        if dictHas st.plans meal then st
        else { st with plans := dset st.plans meal [] }

/-- The planner's initial state: empty plans, empty ledger. -/
def initState : PlanState := ⟨[], ∅⟩

/-- Embeds `seat_people`: fold the per-meal step over the meals in order. -/
def seat_people (people : List Person)
    (setOrd : String → List Person → List Person) (meals : List String) :
    PlanState :=
  meals.foldl (mealStep people setOrd) initState

/-- The planner's state just before processing the meal at position `i`. -/
def stateBefore (people : List Person)
    (setOrd : String → List Person → List Person) (meals : List String)
    (i : Nat) : PlanState :=
  (meals.take i).foldl (mealStep people setOrd) initState

/-- The (truthiness-normalised) search result for the meal at position
`i`, at the planner state reached then. -/
def searchAt (people : List Person)
    (setOrd : String → List Person → List Person) (meals : List String)
    (i : Nat) : Option (List Person) :=
  let meal := meals.getD i ""
  let st := stateBefore people setOrd meals i
  let att := attendeesOf people meal
  match find_arrangement (setOrd meal att) att.length (dgetD st.plans meal) st.ledger with
  | some (x :: xs) => some (x :: xs)
  | _ => none

/-- The arrangement the planner accepts for the meal at position `i`, if
any: the search result when the meal has at least two attendees. -/
def acceptedAt (people : List Person)
    (setOrd : String → List Person → List Person) (meals : List String)
    (i : Nat) : Option (List Person) :=
  if (attendeesOf people (meals.getD i "")).length < 2 then none
  else searchAt people setOrd meals i

/-- The number of canonical pairs the meal at hand adds to the ledger:
`0` unless the planner accepts an arrangement for `n ≥ 2` attendees, and
then `1` when `n = 2` (the two adjacencies of a two-seat circle are the
same unordered pair) and `n` otherwise. -/
def mealContrib (people : List Person)
    (setOrd : String → List Person → List Person) (st : PlanState)
    (meal : String) : Nat :=
  let att := attendeesOf people meal
  let n := att.length
  if n = 0 then 0
  else if n = 1 then 0
  else
    match find_arrangement (setOrd meal att) n (dgetD st.plans meal) st.ledger with
    | some (_ :: _) => if n = 2 then 1 else n
    | _ => 0

/-- The total number of pairs a run over `meals`, started at `st`, adds
to the ledger. -/
def sumContrib (people : List Person)
    (setOrd : String → List Person → List Person) :
    PlanState → List String → Nat
  | _, [] => 0
  | st, m :: ms =>
      mealContrib people setOrd st m +
        sumContrib people setOrd (mealStep people setOrd st m) ms

/-- A concrete female attendee of meal `"m"`, used in concrete instances. -/
def alice : Person := ⟨"Alice", "female", [], [], ["m"]⟩

/-- A concrete male attendee of meal `"m"`. -/
def bob : Person := ⟨"Bob", "male", [], [], ["m"]⟩

/-- A concrete female attendee of meal `"m"`. -/
def carol : Person := ⟨"Carol", "female", [], [], ["m"]⟩

/-- A concrete male attendee of meal `"m"`. -/
def dave : Person := ⟨"Dave", "male", [], [], ["m"]⟩

/-- Three same-sex attendees of meal `"d"`. -/
def wendy : Person := ⟨"Wendy", "female", [], [], ["d"]⟩

/-- Second same-sex attendee of meal `"d"`. -/
def willa : Person := ⟨"Willa", "female", [], [], ["d"]⟩

/-- Third same-sex attendee of meal `"d"`. -/
def wren : Person := ⟨"Wren", "female", [], [], ["d"]⟩

/-- The identity set-iteration order: the Python set happens to iterate
its elements in insertion order. -/
def ordId : String → List Person → List Person := fun _ l => l

/-- `charListLt` is asymmetric. -/
theorem charListLt_asymm : ∀ as bs, charListLt as bs = true → charListLt bs as = false := by
  intro as
  induction as with
  | nil =>
    intro bs h
    cases bs with
    | nil => simp [charListLt] at h
    | cons b t => simp [charListLt]
  | cons a as ih =>
    intro bs h
    cases bs with
    | nil => simp [charListLt] at h
    | cons b t =>
      simp only [charListLt] at h ⊢
      by_cases hab : a < b
      · have hba : ¬ b < a := lt_asymm hab
        simp [hab, hba]
      · by_cases hba : b < a
        · simp [hab, hba] at h
        · simp only [hab, hba, if_false] at h ⊢
          simp [ih t h]

/-- If neither list is lexicographically smaller, the lists are equal. -/
theorem charListLt_eq_of_not : ∀ as bs, charListLt as bs = false →
    charListLt bs as = false → as = bs := by
  intro as
  induction as with
  | nil =>
    intro bs h1 _
    cases bs with
    | nil => rfl
    | cons b t => simp [charListLt] at h1
  | cons a as ih =>
    intro bs h1 h2
    cases bs with
    | nil => simp [charListLt] at h2
    | cons b t =>
      simp only [charListLt] at h1 h2
      by_cases hab : a < b
      · simp [hab] at h1
      · by_cases hba : b < a
        · simp [hab, hba] at h2
        · have : a = b := le_antisymm (not_lt.mp hba) (not_lt.mp hab)
          simp only [if_neg hba, if_neg hab] at h1 h2
          rw [this, ih t h1 h2]

/-- `strLt` is asymmetric. -/
theorem strLt_asymm {a b : String} (h : strLt a b = true) : strLt b a = false :=
  charListLt_asymm a.data b.data h

/-- If neither string is smaller, the strings are equal. -/
theorem strLt_eq_of_not {a b : String} (h1 : strLt a b = false)
    (h2 : strLt b a = false) : a = b := by
  cases a; cases b
  exact congrArg String.mk (charListLt_eq_of_not _ _ h1 h2)

/-- The canonical pair is symmetric in its two names. -/
theorem canonicalPair_comm (a b : String) : canonicalPair a b = canonicalPair b a := by
  unfold canonicalPair
  cases h1 : strLt a b
  · cases h2 : strLt b a
    · rw [strLt_eq_of_not h1 h2]
    · simp
  · rw [strLt_asymm h1]
    simp

/-- Equal canonical pairs come from the same unordered pair of names. -/
theorem canonicalPair_eq_inv {a b c d : String}
    (h : canonicalPair a b = canonicalPair c d) :
    (a = c ∧ b = d) ∨ (a = d ∧ b = c) := by
  unfold canonicalPair at h
  split at h <;> split at h <;>
    simp only [Prod.mk.injEq] at h <;> tauto

/-- Inserting keeps the multiset of candidates. -/
theorem insertSorted_perm (c : Int × Person × Bool) :
    ∀ l, (insertSorted c l).Perm (c :: l) := by
  intro l
  induction l with
  | nil => simp [insertSorted]
  | cons d t ih =>
    simp only [insertSorted]
    by_cases h : c.1 < d.1
    · simp [h]
    · simp only [if_neg h]
      exact ((ih.cons d).trans (List.Perm.swap c d t))

/-- The stable sort keeps the multiset of candidates. -/
theorem foldl_insertSorted_perm :
    ∀ (l acc : List (Int × Person × Bool)),
      (l.foldl (fun acc c => insertSorted c acc) acc).Perm (acc ++ l) := by
  intro l
  induction l with
  | nil => intro acc; simp
  | cons c t ih =>
    intro acc
    have h1 := ih (insertSorted c acc)
    have h2 : (insertSorted c acc ++ t).Perm (acc ++ c :: t) := by
      have := (insertSorted_perm c acc).append_right t
      exact this.trans (by simpa using (@List.perm_middle _ c acc t).symm)
    simpa using h1.trans h2

/-- Sorting candidates by score is a permutation. -/
theorem sortByScore_perm (l : List (Int × Person × Bool)) :
    (sortByScore l).Perm l := by
  simpa using foldl_insertSorted_perm l []

/-- Membership is unchanged by the sort. -/
theorem mem_sortByScore {c : Int × Person × Bool}
    {l : List (Int × Person × Bool)} (h : c ∈ sortByScore l) : c ∈ l :=
  (sortByScore_perm l).mem_iff.mp h

/-- Unfolding equation of `consecPairs` on two-cons lists. -/
theorem consecPairs_cons_cons (a b : Person) (t : List Person) :
    consecPairs (a :: b :: t) = canonicalPair a.name b.name :: consecPairs (b :: t) := rfl

/-- Unfolding equation of `consecSameSex` on two-cons lists. -/
theorem consecSameSex_cons_cons (a b : Person) (t : List Person) :
    consecSameSex (a :: b :: t) =
      (if a.sex == b.sex then 1 else 0) + consecSameSex (b :: t) := rfl

/-- Appending one person to a non-empty arrangement adds exactly the pair
of the old last person and the newcomer. -/
theorem consecPairs_snoc : ∀ (l : List Person) (p last : Person),
    l.getLast? = some last →
    consecPairs (l ++ [p]) = consecPairs l ++ [canonicalPair last.name p.name] := by
  intro l
  induction l with
  | nil => intro p last h; simp at h
  | cons a t ih =>
    intro p last h
    cases t with
    | nil =>
      simp only [List.getLast?_singleton, Option.some.injEq] at h
      subst h
      simp [consecPairs_cons_cons, consecPairs]
    | cons b t' =>
      rw [List.getLast?_cons_cons] at h
      have hstep := ih p last h
      simp only [List.cons_append] at hstep
      simp only [List.cons_append, consecPairs_cons_cons]
      rw [hstep]

/-- Appending one person to a non-empty arrangement adds one same-sex
adjacency exactly when the old last person has the newcomer's sex. -/
theorem consecSameSex_snoc : ∀ (l : List Person) (p last : Person),
    l.getLast? = some last →
    consecSameSex (l ++ [p]) =
      consecSameSex l + (if last.sex == p.sex then 1 else 0) := by
  intro l
  induction l with
  | nil => intro p last h; simp at h
  | cons a t ih =>
    intro p last h
    cases t with
    | nil =>
      simp only [List.getLast?_singleton, Option.some.injEq] at h
      subst h
      simp [consecSameSex_cons_cons, consecSameSex, Nat.add_comm]
    | cons b t' =>
      rw [List.getLast?_cons_cons] at h
      have hstep := ih p last h
      simp only [List.cons_append] at hstep
      simp only [List.cons_append, consecSameSex_cons_cons]
      rw [hstep, Nat.add_assoc]

/-- Index view of `consecPairs`. -/
theorem consecPairs_get?_eq : ∀ (l : List Person) (i : Nat) (x y : Person),
    l.get? i = some x → l.get? (i + 1) = some y →
    (consecPairs l).get? i = some (canonicalPair x.name y.name) := by
  intro l
  induction l with
  | nil => intro i x y hx _; simp at hx
  | cons a t ih =>
    intro i x y hx hy
    cases t with
    | nil =>
      cases i with
      | zero => simp at hy
      | succ j => simp at hy
    | cons b t' =>
      cases i with
      | zero =>
        simp only [List.get?_cons_zero, Option.some.injEq] at hx
        simp only [List.get?_cons_succ, List.get?_cons_zero, Option.some.injEq] at hy
        subst hx; subst hy
        rfl
      | succ j =>
        simp only [List.get?_cons_succ] at hx hy
        have := ih j x y hx hy
        simpa [consecPairs] using this

/-- Every recorded pair of a non-empty arrangement is a consecutive pair
or the wrap-around pair of last and first. -/
theorem mem_recordPairs {q : String × String} {arr : List Person} {a b : Person}
    (ha : arr.head? = some a) (hb : arr.getLast? = some b)
    (hq : q ∈ recordPairs arr) :
    q ∈ consecPairs arr ∨ q = canonicalPair b.name a.name := by
  have hne : arr ≠ [] := by
    intro h; subst h; simp at ha
  have hn : 0 < arr.length := List.length_pos.mpr hne
  simp only [recordPairs, List.mem_map, List.mem_range] at hq
  obtain ⟨i, hi, hfi⟩ := hq
  by_cases hlast : i + 1 < arr.length
  · left
    have h1 : (i + 1) % arr.length = i + 1 := Nat.mod_eq_of_lt hlast
    have hx : arr.get? i = some (arr.getD i personDefault) := by
      rw [List.getD_eq_get _ _ hi]
      exact List.get?_eq_get hi
    have hy : arr.get? (i + 1) = some (arr.getD (i + 1) personDefault) := by
      rw [List.getD_eq_get _ _ hlast]
      exact List.get?_eq_get hlast
    have := consecPairs_get?_eq arr i _ _ hx hy
    rw [← hfi, h1]
    exact List.get?_mem this
  · right
    have hieq : i = arr.length - 1 := by omega
    have h0 : (i + 1) % arr.length = 0 := by
      have : i + 1 = arr.length := by omega
      rw [this, Nat.mod_self]
    have hgb : arr.getD i personDefault = b := by
      have := List.getLast?_eq_get? arr
      rw [this, ← hieq] at hb
      rw [List.getD_eq_get?, hb]
      rfl
    have hga : arr.getD 0 personDefault = a := by
      cases arr with
      | nil => simp at ha
      | cons x xs =>
        simp only [List.head?_cons, Option.some.injEq] at ha
        simp [ha]
    rw [← hfi, h0, hgb, hga]

/-- Inversion of the candidate filter: a surviving candidate is the
person itself, its pair with the last-seated person is not in the ledger,
it does not create a second same-sex adjacency, and its flag says whether
it creates the first one. -/
theorem candidateEval_some {last : Person} {ledger : Finset (String × String)}
    {sexUsed : Bool} {p : Person} {c : Int × Person × Bool}
    (h : candidateEval last ledger sexUsed p = some c) :
    c.2.1 = p ∧ canonicalPair last.name p.name ∉ ledger ∧
      (last.sex == p.sex && sexUsed) = false ∧ c.2.2 = (last.sex == p.sex) := by
  unfold candidateEval at h
  split at h
  · exact absurd h (by simp)
  · split at h
    · exact absurd h (by simp)
    · next hmem hbe =>
      simp only [Option.some.injEq] at h
      subst h
      refine ⟨rfl, hmem, ?_, rfl⟩
      simpa using hbe

/-- Soundness of the backtracking search: a returned arrangement extends
the current prefix by a permutation of the remaining people, every
adjacent pair it creates (wrap-around included) avoids the ledger, and it
has at most one same-sex adjacency (wrap-around included). -/
theorem backtrack_sound :
    ∀ (fuel : Nat) (current remaining : List Person) (total : Nat)
      (found : List (List Person)) (ledger : Finset (String × String))
      (sexUsed : Bool) (arr : List Person),
      findArrangementBacktrack fuel current remaining total found ledger sexUsed = some arr →
      (∀ q ∈ consecPairs current, q ∉ ledger) →
      consecSameSex current ≤ (if sexUsed then 1 else 0) →
      ((∀ q ∈ consecPairs arr, q ∉ ledger)
        ∧ (∀ a b, arr.head? = some a → arr.getLast? = some b →
            canonicalPair b.name a.name ∉ ledger)
        ∧ sameSexWithWrap arr ≤ 1
        ∧ (total = current.length + remaining.length →
            ∃ tail, arr = current ++ tail ∧ tail.Perm remaining)) := by
  intro fuel
  induction fuel with
  | zero =>
    intro current remaining total found ledger sexUsed arr h _ _
    simp [findArrangementBacktrack] at h
  | succ fuel ih =>
    intro current remaining total found ledger sexUsed arr h hfresh hsex
    rw [findArrangementBacktrack] at h
    by_cases hlen : current.length = total
    · rw [if_pos hlen] at h
      split at h
      next first last hh hl =>
        split_ifs at h with h1 h2 h3
        obtain rfl : current = arr := by
          simpa using h
        refine ⟨hfresh, ?_, ?_, ?_⟩
        · intro a b hha hhl
          rw [hh] at hha
          rw [hl] at hhl
          obtain rfl : first = a := by simpa using hha
          obtain rfl : last = b := by simpa using hhl
          exact h1
        · have hwrap : sameSexWithWrap current =
              consecSameSex current + (if first.sex == last.sex then 1 else 0) := by
            unfold sameSexWithWrap
            rw [hh, hl]
          rw [hwrap]
          by_cases hbe : first.sex = last.sex
          · have hbe1 : (first.sex == last.sex) = true := beq_iff_eq.mpr hbe
            have hbe2 : (last.sex == first.sex) = true := beq_iff_eq.mpr hbe.symm
            have hsu : sexUsed = false := by
              cases hsu2 : sexUsed
              · rfl
              · rw [hbe2, hsu2] at h2
                simp at h2
            rw [hsu] at hsex
            simp only [Bool.false_eq_true, if_false] at hsex
            rw [hbe1]
            simp only [if_true]
            omega
          · have hbe1 : (first.sex == last.sex) = false := beq_eq_false_iff_ne.mpr hbe
            rw [hbe1]
            simp only [Bool.false_eq_true, if_false, Nat.add_zero]
            cases hsu2 : sexUsed
            · rw [hsu2] at hsex
              simp only [Bool.false_eq_true, if_false] at hsex
              omega
            · rw [hsu2] at hsex
              simp only [if_true] at hsex
              omega
        · intro htot
          have hrem : remaining = [] := by
            have : remaining.length = 0 := by omega
            exact List.length_eq_zero.mp this
          exact ⟨[], by simp, by simp [hrem]⟩
      next hother =>
        simp at h
    · rw [if_neg hlen] at h
      cases hL : current.getLast? with
      | none =>
        have hcur : current = [] := List.getLast?_eq_none.mp hL
        subst hcur
        rw [hL] at h
        obtain ⟨c, hcmem, hc⟩ := List.exists_of_findSome?_eq_some h
        cases hrec : findArrangementBacktrack fuel ([] ++ [c.2.1])
            (List.erase remaining c.2.1) total found ledger (sexUsed || c.2.2) with
        | none => rw [hrec] at hc; simp at hc
        | some res =>
          rw [hrec] at hc
          cases res with
          | nil => simp at hc
          | cons x xs =>
            obtain rfl : x :: xs = arr := by simpa using hc
            obtain ⟨p, hp, hcp⟩ := List.mem_map.mp (mem_sortByScore hcmem)
            have hc1 : c.2.1 = p := by rw [← hcp]
            have hfresh' : ∀ q ∈ consecPairs ([] ++ [c.2.1]), q ∉ ledger := by
              simp [consecPairs]
            have hsex' : consecSameSex ([] ++ [c.2.1]) ≤
                (if (sexUsed || c.2.2) then 1 else 0) := by
              have h0 : consecSameSex ([] ++ [c.2.1]) = 0 := rfl
              rw [h0]
              exact Nat.zero_le _
            obtain ⟨g1, g2, g3, g4⟩ := ih _ _ _ _ _ _ _ hrec hfresh' hsex'
            refine ⟨g1, g2, g3, ?_⟩
            intro htot
            have hrl : 0 < remaining.length := List.length_pos.mpr (by
              intro hnil; rw [hnil] at hp; simp at hp)
            have herl : (List.erase remaining c.2.1).length = remaining.length - 1 := by
              rw [hc1]
              exact List.length_erase_of_mem hp
            obtain ⟨tail', harr, hperm'⟩ := g4 (by
              simp only [List.length_nil] at htot
              simp only [List.nil_append, List.length_cons, List.length_nil, herl]
              omega)
            refine ⟨c.2.1 :: tail', by simpa using harr, ?_⟩
            rw [hc1] at hperm' ⊢
            exact (hperm'.cons p).trans (List.perm_cons_erase hp).symm
      | some last =>
        rw [hL] at h
        obtain ⟨c, hcmem, hc⟩ := List.exists_of_findSome?_eq_some h
        cases hrec : findArrangementBacktrack fuel (current ++ [c.2.1])
            (List.erase remaining c.2.1) total found ledger (sexUsed || c.2.2) with
        | none => rw [hrec] at hc; simp at hc
        | some res =>
          rw [hrec] at hc
          cases res with
          | nil => simp at hc
          | cons x xs =>
            obtain rfl : x :: xs = arr := by simpa using hc
            obtain ⟨p, hp, hpe⟩ := List.mem_filterMap.mp (mem_sortByScore hcmem)
            obtain ⟨hc1, hc2, hc3, hc4⟩ := candidateEval_some hpe
            have hfresh' : ∀ q ∈ consecPairs (current ++ [c.2.1]), q ∉ ledger := by
              rw [hc1, consecPairs_snoc current p last hL]
              intro q hq
              rcases List.mem_append.mp hq with hq1 | hq2
              · exact hfresh q hq1
              · rw [List.mem_singleton.mp hq2]
                exact hc2
            have hsex' : consecSameSex (current ++ [c.2.1]) ≤
                (if (sexUsed || c.2.2) then 1 else 0) := by
              rw [hc1, consecSameSex_snoc current p last hL, hc4]
              cases hbe : (last.sex == p.sex) with
              | false =>
                simpa using hsex
              | true =>
                have hsu : sexUsed = false := by
                  rw [hbe] at hc3
                  simpa using hc3
                rw [hsu] at hsex ⊢
                simp only [Bool.false_eq_true, if_false] at hsex
                simp only [Bool.false_or, if_true, if_pos rfl]
                omega
            obtain ⟨g1, g2, g3, g4⟩ := ih _ _ _ _ _ _ _ hrec hfresh' hsex'
            refine ⟨g1, g2, g3, ?_⟩
            intro htot
            have hrl : 0 < remaining.length := List.length_pos.mpr (by
              intro hnil; rw [hnil] at hp; simp at hp)
            have herl : (List.erase remaining c.2.1).length = remaining.length - 1 := by
              rw [hc1]
              exact List.length_erase_of_mem hp
            obtain ⟨tail', harr, hperm'⟩ := g4 (by
              simp only [List.length_append, List.length_cons, List.length_nil, herl]
              rw [htot]
              omega)
            refine ⟨c.2.1 :: tail', by simpa [List.append_assoc] using harr, ?_⟩
            rw [hc1] at hperm' ⊢
            exact (hperm'.cons p).trans (List.perm_cons_erase hp).symm

/-- Soundness of the search entry point: an arrangement it returns avoids
the ledger on every adjacent pair (wrap-around included), has at most one
same-sex adjacency, and — when `total` is the number of people to seat —
is a permutation of the given people. -/
theorem find_arrangement_sound {remaining : List Person} {total : Nat}
    {found : List (List Person)} {ledger : Finset (String × String)}
    {arr : List Person}
    (h : find_arrangement remaining total found ledger = some arr) :
    (∀ q ∈ consecPairs arr, q ∉ ledger)
    ∧ (∀ a b, arr.head? = some a → arr.getLast? = some b →
        canonicalPair b.name a.name ∉ ledger)
    ∧ sameSexWithWrap arr ≤ 1
    ∧ (total = remaining.length → arr.Perm remaining) := by
  have hc : ∀ q ∈ consecPairs ([] : List Person), q ∉ ledger := by
    intro q hq; simp [consecPairs] at hq
  have hs : consecSameSex ([] : List Person) ≤ (if false then 1 else 0) := by
    simp [consecSameSex]
  obtain ⟨g1, g2, g3, g4⟩ :=
    backtrack_sound (total + 1) [] remaining total found ledger false arr h hc hs
  refine ⟨g1, g2, g3, ?_⟩
  intro htot
  obtain ⟨tail, harr, hperm⟩ := g4 (by simpa using htot)
  rw [harr]
  simpa using hperm

/-- All-same-sex lists have one same-sex adjacency per consecutive pair. -/
theorem consecSameSex_all_same : ∀ (l : List Person) (s : String),
    (∀ p ∈ l, p.sex = s) → consecSameSex l = l.length - 1 := by
  intro l
  induction l with
  | nil => intro s _; rfl
  | cons a t ih =>
    intro s hall
    cases t with
    | nil => rfl
    | cons b t' =>
      have hab : (a.sex == b.sex) = true := by
        rw [beq_iff_eq, hall a (by simp), hall b (by simp)]
      rw [consecSameSex_cons_cons, hab, ih s (fun p hp => hall p (by simp [hp]))]
      simp only [if_true, List.length_cons]
      omega

/-- With at least two attendees all of the same sex, the search always
fails: a full circle of same-sex people would need at least two same-sex
adjacencies, and the budget is one. -/
theorem all_same_sex_fails (remaining : List Person)
    (found : List (List Person)) (ledger : Finset (String × String))
    (s : String) (hall : ∀ p ∈ remaining, p.sex = s)
    (h2 : 2 ≤ remaining.length) :
    find_arrangement remaining remaining.length found ledger = none := by
  cases heq : find_arrangement remaining remaining.length found ledger with
  | none => rfl
  | some arr =>
    exfalso
    obtain ⟨_, _, g3, g4⟩ := find_arrangement_sound heq
    have hperm := g4 rfl
    have hlen : arr.length = remaining.length := hperm.length_eq
    have hallarr : ∀ p ∈ arr, p.sex = s := fun p hp => hall p (hperm.mem_iff.mp hp)
    have hcount : consecSameSex arr = arr.length - 1 :=
      consecSameSex_all_same arr s hallarr
    have hne : arr ≠ [] := by
      intro hnil
      rw [hnil] at hlen
      simp at hlen
      omega
    obtain ⟨a, ha, hamem⟩ : ∃ a, arr.head? = some a ∧ a ∈ arr := by
      cases arr with
      | nil => exact absurd rfl hne
      | cons x xs => exact ⟨x, rfl, by simp⟩
    obtain ⟨b, hb⟩ : ∃ b, arr.getLast? = some b := by
      have := List.getLast?_isSome.mpr hne
      exact Option.isSome_iff_exists.mp this
    have hbmem : b ∈ arr :=
      List.get?_mem (by rw [← List.getLast?_eq_get?]; exact hb)
    have hwrap : sameSexWithWrap arr = consecSameSex arr + 1 := by
      unfold sameSexWithWrap
      rw [ha, hb]
      have hab : (a.sex == b.sex) = true := by
        rw [beq_iff_eq, hallarr a hamem, hallarr b hbmem]
      show consecSameSex arr + (if (a.sex == b.sex) = true then 1 else 0) =
        consecSameSex arr + 1
      rw [hab]
      simp
    rw [hwrap, hcount, hlen] at g3
    omega

/-- Assigning a key and reading it back gives the assigned value. -/
theorem dgetD_dset_self : ∀ (d : List (String × List (List Person)))
    (k : String) (v : List (List Person)), dgetD (dset d k v) k = v := by
  intro d
  induction d with
  | nil =>
    intro k v
    simp [dset, dgetD, List.find?]
  | cons e rest ih =>
    intro k v
    simp only [dset]
    cases hek : (e.1 == k) with
    | true =>
      simp only [if_pos rfl]
      simp [dgetD, List.find?]
    | false =>
      simp only [Bool.false_eq_true, if_false]
      simp only [dgetD, List.find?, hek]
      exact ih k v

/-- One planner step at position `i` of the meal list. -/
theorem stateBefore_succ (people : List Person)
    (setOrd : String → List Person → List Person) (meals : List String)
    (i : Nat) (hi : i < meals.length) :
    stateBefore people setOrd meals (i + 1) =
      mealStep people setOrd (stateBefore people setOrd meals i) (meals.getD i "") := by
  unfold stateBefore
  rw [List.take_succ, List.foldl_append, List.getElem?_eq_getElem hi]
  have hg : meals.getD i "" = meals[i] := List.getD_eq_getElem meals "" hi
  rw [hg]
  simp

/-- Past the end of the meal list the planner state is stable. -/
theorem stateBefore_stable (people : List Person)
    (setOrd : String → List Person → List Person) (meals : List String)
    (i : Nat) (hge : meals.length ≤ i) :
    stateBefore people setOrd meals i = seat_people people setOrd meals := by
  unfold stateBefore seat_people
  rw [List.take_of_length_le hge]

/-- The full run factors through the state before any position: planning
continues with the remaining meals from there. -/
theorem seat_people_eq_drop (people : List Person)
    (setOrd : String → List Person → List Person) (meals : List String)
    (i : Nat) :
    seat_people people setOrd meals =
      (meals.drop i).foldl (mealStep people setOrd)
        (stateBefore people setOrd meals i) := by
  unfold seat_people stateBefore
  conv_lhs => rw [← List.take_append_drop i meals]
  rw [List.foldl_append]

/-- Folding `insert` over a pair list is union with its finset. -/
theorem foldl_insert_union : ∀ (l : List (String × String))
    (L : Finset (String × String)),
    l.foldl (fun L q => insert q L) L = L ∪ l.toFinset := by
  intro l
  induction l with
  | nil => intro L; simp
  | cons q t ih =>
    intro L
    rw [List.foldl_cons, ih]
    ext a
    simp only [Finset.mem_union, Finset.mem_insert, List.toFinset_cons, List.mem_toFinset]
    tauto

/-- A planner step never removes a ledger pair. -/
theorem mealStep_ledger_subset (people : List Person)
    (setOrd : String → List Person → List Person) (st : PlanState)
    (meal : String) : st.ledger ⊆ (mealStep people setOrd st meal).ledger := by
  simp only [mealStep]
  split_ifs with h0 h1
  · exact Finset.Subset.refl _
  · exact Finset.Subset.refl _
  all_goals
    cases hfa : find_arrangement (setOrd meal (attendeesOf people meal))
        (attendeesOf people meal).length (dgetD st.plans meal) st.ledger with
    | none => exact Finset.Subset.refl _
    | some res =>
      cases res with
      | nil => exact Finset.Subset.refl _
      | cons x xs =>
        show st.ledger ⊆ (recordPairs (x :: xs)).foldl (fun L q => insert q L) st.ledger
        rw [foldl_insert_union]
        exact Finset.subset_union_left

/-- Planner step equation: no attendees. -/
theorem mealStep_empty (people : List Person)
    (setOrd : String → List Person → List Person) (st : PlanState)
    (meal : String) (h : attendeesOf people meal = []) :
    mealStep people setOrd st meal = { st with plans := dset st.plans meal [] } := by
  simp only [mealStep, h]
  rfl

/-- Planner step equation: a single attendee. -/
theorem mealStep_single (people : List Person)
    (setOrd : String → List Person → List Person) (st : PlanState)
    (meal : String) (p : Person) (h : attendeesOf people meal = [p]) :
    mealStep people setOrd st meal = { st with plans := dset st.plans meal [[p]] } := by
  simp only [mealStep, h]
  rfl

/-- Planner step equation: the search returns a (non-empty) arrangement. -/
theorem mealStep_success (people : List Person)
    (setOrd : String → List Person → List Person) (st : PlanState)
    (meal : String) (x : Person) (xs : List Person)
    (h0 : ¬ (attendeesOf people meal).length = 0)
    (h1 : ¬ (attendeesOf people meal).length = 1)
    (hres : find_arrangement (setOrd meal (attendeesOf people meal))
        (attendeesOf people meal).length (dgetD st.plans meal) st.ledger =
        some (x :: xs)) :
    mealStep people setOrd st meal =
      { plans := dset st.plans meal (dgetD st.plans meal ++ [x :: xs]),
        ledger := (recordPairs (x :: xs)).foldl (fun L q => insert q L) st.ledger } := by
  simp only [mealStep]
  rw [if_neg h0, if_neg h1, hres]

/-- Planner step equation: the search fails (returns nothing non-empty). -/
theorem mealStep_fail (people : List Person)
    (setOrd : String → List Person → List Person) (st : PlanState)
    (meal : String)
    (h0 : ¬ (attendeesOf people meal).length = 0)
    (h1 : ¬ (attendeesOf people meal).length = 1)
    (hres : ∀ x xs, find_arrangement (setOrd meal (attendeesOf people meal))
        (attendeesOf people meal).length (dgetD st.plans meal) st.ledger ≠
        some (x :: xs)) :
    mealStep people setOrd st meal =
      (if dictHas st.plans meal then st
       else { st with plans := dset st.plans meal [] }) := by
  simp only [mealStep]
  rw [if_neg h0, if_neg h1]

/-- With pairwise-distinct names, positions are determined by names. -/
theorem name_getD_inj (arr : List Person)
    (hnd : (arr.map Person.name).Nodup)
    {i j : Nat} (hi : i < arr.length) (hj : j < arr.length)
    (h : (arr.getD i personDefault).name = (arr.getD j personDefault).name) :
    i = j := by
  rw [List.getD_eq_get _ _ hi, List.getD_eq_get _ _ hj] at h
  have hi' : i < (arr.map Person.name).length := by simpa using hi
  have hj' : j < (arr.map Person.name).length := by simpa using hj
  have hmap : (arr.map Person.name).get ⟨i, hi'⟩ = (arr.map Person.name).get ⟨j, hj'⟩ := by
    rw [List.get_map, List.get_map]
    exact h
  have := (hnd.get_inj_iff).mp hmap
  exact congrArg Fin.val this

/-- The number of distinct recorded pairs of an arrangement with
pairwise-distinct names: one for a two-seat circle (its two adjacencies
are the same unordered pair), the seat count otherwise. -/
theorem recordPairs_toFinset_card (arr : List Person)
    (h2 : 2 ≤ arr.length) (hnd : (arr.map Person.name).Nodup) :
    (recordPairs arr).toFinset.card = if arr.length = 2 then 1 else arr.length := by
  by_cases hn2 : arr.length = 2
  · rw [if_pos hn2]
    obtain ⟨a, b, rfl⟩ : ∃ a b, arr = [a, b] := by
      cases arr with
      | nil => simp at hn2
      | cons a t =>
        cases t with
        | nil => simp at hn2
        | cons b t' =>
          cases t' with
          | nil => exact ⟨a, b, rfl⟩
          | cons c t'' => simp at hn2
    have hr : recordPairs [a, b] =
        [canonicalPair a.name b.name, canonicalPair b.name a.name] := by
      simp [recordPairs, List.range_succ]
    rw [hr, canonicalPair_comm b.name a.name]
    simp
  · rw [if_neg hn2]
    have hn3 : 3 ≤ arr.length := by omega
    have hpos : 0 < arr.length := by omega
    have hnodup : (recordPairs arr).Nodup := by
      unfold recordPairs
      refine List.Nodup.map_on ?_ (List.nodup_range arr.length)
      intro i hi j hj hf
      simp only [List.mem_range] at hi hj
      have hsi : (i + 1) % arr.length < arr.length := Nat.mod_lt _ hpos
      have hsj : (j + 1) % arr.length < arr.length := Nat.mod_lt _ hpos
      rcases canonicalPair_eq_inv hf with ⟨e1, e2⟩ | ⟨e1, e2⟩
      · exact name_getD_inj arr hnd hi hj e1
      · have hij1 : i = (j + 1) % arr.length := name_getD_inj arr hnd hi hsj e1
        have hij2 : (i + 1) % arr.length = j := name_getD_inj arr hnd hsi hj e2
        exfalso
        have hii : i = (i + 2) % arr.length := by
          conv_lhs => rw [hij1]
          rw [← hij2, Nat.mod_add_mod]
        rcases lt_or_ge (i + 2) arr.length with hlt | hge
        · rw [Nat.mod_eq_of_lt hlt] at hii
          omega
        · rw [Nat.mod_eq_sub_mod hge] at hii
          have hsub : i + 2 - arr.length < arr.length := by omega
          rw [Nat.mod_eq_of_lt hsub] at hii
          omega
    rw [List.toFinset_card_of_nodup hnodup]
    unfold recordPairs
    simp

/-- Ledger-size effect of the successful branch: contribution from
`mealContrib` in the two non-trivial cases. -/
theorem mealContrib_success (people : List Person)
    (setOrd : String → List Person → List Person) (st : PlanState)
    (meal : String) (x : Person) (xs : List Person)
    (h0 : ¬ (attendeesOf people meal).length = 0)
    (h1 : ¬ (attendeesOf people meal).length = 1)
    (hres : find_arrangement (setOrd meal (attendeesOf people meal))
        (attendeesOf people meal).length (dgetD st.plans meal) st.ledger =
        some (x :: xs)) :
    mealContrib people setOrd st meal =
      if (attendeesOf people meal).length = 2 then 1
      else (attendeesOf people meal).length := by
  simp only [mealContrib]
  rw [if_neg h0, if_neg h1, hres]

/-- A meal with no accepted arrangement contributes no pairs. -/
theorem mealContrib_fail (people : List Person)
    (setOrd : String → List Person → List Person) (st : PlanState)
    (meal : String)
    (hres : ∀ x xs, find_arrangement (setOrd meal (attendeesOf people meal))
        (attendeesOf people meal).length (dgetD st.plans meal) st.ledger ≠
        some (x :: xs)) :
    mealContrib people setOrd st meal = 0 := by
  simp only [mealContrib]
  split_ifs with h0 h1
  · rfl
  · rfl
  · rfl

/-- One planner step grows the ledger by exactly the meal's contribution. -/
theorem mealStep_ledger_card (people : List Person)
    (setOrd : String → List Person → List Person)
    (hperm : ∀ m l, (setOrd m l).Perm l)
    (hnames : (people.map Person.name).Nodup)
    (st : PlanState) (meal : String) :
    (mealStep people setOrd st meal).ledger.card =
      st.ledger.card + mealContrib people setOrd st meal := by
  by_cases h0 : (attendeesOf people meal).length = 0
  · have hatt : attendeesOf people meal = [] := List.length_eq_zero.mp h0
    rw [mealStep_empty people setOrd st meal hatt]
    have hc : mealContrib people setOrd st meal = 0 := by
      simp only [mealContrib]
      rw [if_pos h0]
    rw [hc]
    simp
  · by_cases h1 : (attendeesOf people meal).length = 1
    · obtain ⟨p, hatt⟩ : ∃ p, attendeesOf people meal = [p] := by
        cases hl : attendeesOf people meal with
        | nil => rw [hl] at h1; simp at h1
        | cons p t =>
          cases t with
          | nil => exact ⟨p, rfl⟩
          | cons q t' => rw [hl] at h1; simp at h1
      rw [mealStep_single people setOrd st meal p hatt]
      have hc : mealContrib people setOrd st meal = 0 := by
        simp only [mealContrib]
        rw [if_neg h0, if_pos h1]
      rw [hc]
      simp
    · cases hres : find_arrangement (setOrd meal (attendeesOf people meal))
          (attendeesOf people meal).length (dgetD st.plans meal) st.ledger with
      | none =>
        have hne : ∀ x xs, find_arrangement (setOrd meal (attendeesOf people meal))
            (attendeesOf people meal).length (dgetD st.plans meal) st.ledger ≠
            some (x :: xs) := by
          intro x xs hcon
          rw [hres] at hcon
          exact Option.noConfusion hcon
        rw [mealStep_fail people setOrd st meal h0 h1 hne,
          mealContrib_fail people setOrd st meal hne]
        split_ifs <;> simp
      | some res =>
        cases res with
        | nil =>
          have hne : ∀ x xs, find_arrangement (setOrd meal (attendeesOf people meal))
              (attendeesOf people meal).length (dgetD st.plans meal) st.ledger ≠
              some (x :: xs) := by
            intro x xs hcon
            rw [hres] at hcon
            simp at hcon
          rw [mealStep_fail people setOrd st meal h0 h1 hne,
            mealContrib_fail people setOrd st meal hne]
          split_ifs <;> simp
        | cons x xs =>
          rw [mealStep_success people setOrd st meal x xs h0 h1 hres,
            mealContrib_success people setOrd st meal x xs h0 h1 hres]
          obtain ⟨g1, g2, _, g4⟩ := find_arrangement_sound hres
          have hlenord : (setOrd meal (attendeesOf people meal)).length =
              (attendeesOf people meal).length := (hperm meal _).length_eq
          have hpermarr : (x :: xs).Perm (attendeesOf people meal) :=
            (g4 hlenord.symm).trans (hperm meal _)
          have hlen : (x :: xs).length = (attendeesOf people meal).length :=
            hpermarr.length_eq
          have hattnd : ((attendeesOf people meal).map Person.name).Nodup :=
            List.Nodup.sublist (List.Sublist.map Person.name
              (List.filter_sublist people)) hnames
          have harrnd : ((x :: xs).map Person.name).Nodup :=
            ((hpermarr.map Person.name).nodup_iff).mpr hattnd
          have h2le : 2 ≤ (x :: xs).length := by rw [hlen]; omega
          have hfreshall : ∀ q ∈ recordPairs (x :: xs), q ∉ st.ledger := by
            intro q hq
            obtain ⟨b, hb⟩ : ∃ b, (x :: xs).getLast? = some b :=
              Option.isSome_iff_exists.mp (List.getLast?_isSome.mpr (by simp))
            rcases @mem_recordPairs q (x :: xs) x b rfl hb hq with hc | hc
            · exact g1 q hc
            · rw [hc]
              exact g2 x b rfl hb
          have hdisj : Disjoint st.ledger (recordPairs (x :: xs)).toFinset := by
            rw [Finset.disjoint_right]
            intro q hq
            exact hfreshall q (List.mem_toFinset.mp hq)
          show ((recordPairs (x :: xs)).foldl (fun L q => insert q L) st.ledger).card = _
          rw [foldl_insert_union, Finset.card_union_of_disjoint hdisj,
            recordPairs_toFinset_card (x :: xs) h2le harrnd, hlen]

/-- Folding the planner over meals adds exactly the sum of per-meal
contributions to the ledger size. -/
theorem foldl_ledger_card (people : List Person)
    (setOrd : String → List Person → List Person)
    (hperm : ∀ m l, (setOrd m l).Perm l)
    (hnames : (people.map Person.name).Nodup) :
    ∀ (meals : List String) (st : PlanState),
      (meals.foldl (mealStep people setOrd) st).ledger.card =
        st.ledger.card + sumContrib people setOrd st meals := by
  intro meals
  induction meals with
  | nil =>
    intro st
    show st.ledger.card = st.ledger.card + sumContrib people setOrd st []
    have h0 : sumContrib people setOrd st [] = 0 := rfl
    rw [h0]
    simp
  | cons m ms ih =>
    intro st
    rw [List.foldl_cons, ih (mealStep people setOrd st m),
      mealStep_ledger_card people setOrd hperm hnames st m]
    have hs : sumContrib people setOrd st (m :: ms) =
        mealContrib people setOrd st m +
          sumContrib people setOrd (mealStep people setOrd st m) ms := rfl
    rw [hs]
    omega

/-- Inversion of acceptance: an accepted arrangement is non-empty, comes
with at least two attendees, and is exactly what the search returned at
the planner state reached before that meal. -/
theorem acceptedAt_inv {people : List Person}
    {setOrd : String → List Person → List Person} {meals : List String}
    {i : Nat} {arr : List Person}
    (h : acceptedAt people setOrd meals i = some arr) :
    2 ≤ (attendeesOf people (meals.getD i "")).length
    ∧ arr ≠ []
    ∧ find_arrangement
        (setOrd (meals.getD i "") (attendeesOf people (meals.getD i "")))
        (attendeesOf people (meals.getD i "")).length
        (dgetD (stateBefore people setOrd meals i).plans (meals.getD i ""))
        (stateBefore people setOrd meals i).ledger = some arr := by
  unfold acceptedAt at h
  split_ifs at h with hlt
  simp only [searchAt] at h
  split at h
  next x xs heq =>
    obtain rfl : x :: xs = arr := by simpa using h
    exact ⟨by omega, by simp, heq⟩
  next => exact Option.noConfusion h

/-- Inversion of a failed search at a planner position: the raw search
result is nothing non-empty. -/
theorem searchAt_none_inv {people : List Person}
    {setOrd : String → List Person → List Person} {meals : List String}
    {i : Nat} (h : searchAt people setOrd meals i = none) :
    ∀ x xs, find_arrangement
        (setOrd (meals.getD i "") (attendeesOf people (meals.getD i "")))
        (attendeesOf people (meals.getD i "")).length
        (dgetD (stateBefore people setOrd meals i).plans (meals.getD i ""))
        (stateBefore people setOrd meals i).ledger ≠ some (x :: xs) := by
  intro x xs hcon
  simp only [searchAt] at h
  rw [hcon] at h
  simp at h

/-- Claim C1: for every arrangement the planner accepts for an event, every
adjacent pair of the arrangement — the wrap-around pair of last and first
included — was not in the Adjacency Ledger at the moment of acceptance. -/
theorem accepted_pairs_fresh (people : List Person)
    (setOrd : String → List Person → List Person) (meals : List String)
    (i : Nat) (arr : List Person)
    (h : acceptedAt people setOrd meals i = some arr) :
    freshPairs arr (stateBefore people setOrd meals i).ledger = true := by
  obtain ⟨_, hne, hfa⟩ := acceptedAt_inv h
  obtain ⟨g1, g2, _, _⟩ := find_arrangement_sound hfa
  rw [freshPairs, List.all_eq_true]
  intro q hq
  obtain ⟨a, ha, hamem⟩ : ∃ a, arr.head? = some a ∧ a ∈ arr := by
    cases arr with
    | nil => exact absurd rfl hne
    | cons x xs => exact ⟨x, rfl, by simp⟩
  obtain ⟨b, hb⟩ : ∃ b, arr.getLast? = some b :=
    Option.isSome_iff_exists.mp (List.getLast?_isSome.mpr hne)
  rcases mem_recordPairs ha hb hq with hc | hc
  · exact decide_eq_true (g1 q hc)
  · rw [hc]
    exact decide_eq_true (g2 a b ha hb)

/-- Witness for C1: a concrete two-person event whose accepted arrangement
has all adjacent pairs outside the (empty) ledger. -/
theorem accepted_pairs_fresh_witness :
    acceptedAt [alice, bob] ordId ["m"] 0 = some [alice, bob]
    ∧ freshPairs [alice, bob] (stateBefore [alice, bob] ordId ["m"] 0).ledger = true :=
  ⟨by decide, accepted_pairs_fresh [alice, bob] ordId ["m"] 0 [alice, bob] (by decide)⟩

/-- Claim C2: every accepted arrangement has at most one same-sex adjacency
(wrap-around included), and a candidate that would create a second same-sex
adjacency is excluded outright by the candidate filter, not merely scored. -/
theorem samesex_budget (people : List Person)
    (setOrd : String → List Person → List Person) (meals : List String)
    (i : Nat) (arr : List Person)
    (h : acceptedAt people setOrd meals i = some arr) :
    sameSexWithWrap arr ≤ 1
    ∧ ∀ (last p : Person) (L : Finset (String × String)),
        last.sex = p.sex → candidateEval last L true p = none := by
  constructor
  · obtain ⟨_, _, hfa⟩ := acceptedAt_inv h
    exact (find_arrangement_sound hfa).2.2.1
  · intro last p L hsame
    unfold candidateEval
    split_ifs with hmem hbe
    · rfl
    · rfl
    · exact absurd (by simp [hsame]) hbe

/-- Witness for C2 at a concrete accepted arrangement and a concrete
excluded candidate. -/
theorem samesex_budget_witness :
    acceptedAt [alice, bob] ordId ["m"] 0 = some [alice, bob]
    ∧ sameSexWithWrap [alice, bob] ≤ 1
    ∧ candidateEval alice ∅ true carol = none :=
  ⟨by decide,
   (samesex_budget [alice, bob] ordId ["m"] 0 [alice, bob] (by decide)).1,
   (samesex_budget [alice, bob] ordId ["m"] 0 [alice, bob] (by decide)).2 alice carol ∅ rfl⟩

/-- Counterexample to claim C3 as stated: one accepted event with exactly
two attendees adds only one canonical pair to the ledger, not two (its
attendee count), because the two adjacencies of a two-seat circle are the
same unordered pair. -/
theorem ledger_size_two_seat_cex :
    acceptedAt [alice, bob] ordId ["m"] 0 = some [alice, bob]
    ∧ (attendeesOf [alice, bob] "m").length = 2
    ∧ (seat_people [alice, bob] ordId ["m"]).ledger.card = 1 :=
  ⟨by decide, by decide, by decide⟩

/-- Claim C3 (amended): across a planning run the Adjacency Ledger only
gains elements, and — when attendee names are pairwise distinct — its
final size is the sum over events of the accepted arrangement's distinct
adjacent pairs: the attendee count for accepted events of three or more
attendees, one for accepted two-attendee events, zero otherwise. -/
theorem ledger_monotone_and_size (people : List Person)
    (setOrd : String → List Person → List Person) (meals : List String)
    (hperm : ∀ m l, (setOrd m l).Perm l)
    (hnames : (people.map Person.name).Nodup) :
    (∀ i, (stateBefore people setOrd meals i).ledger ⊆
        (stateBefore people setOrd meals (i + 1)).ledger)
    ∧ (seat_people people setOrd meals).ledger.card =
        sumContrib people setOrd initState meals := by
  constructor
  · intro i
    by_cases hi : i < meals.length
    · rw [stateBefore_succ people setOrd meals i hi]
      exact mealStep_ledger_subset people setOrd _ _
    · unfold stateBefore
      rw [List.take_of_length_le (by omega), List.take_of_length_le (by omega)]
  · unfold seat_people
    rw [foldl_ledger_card people setOrd hperm hnames meals initState]
    have h0 : initState.ledger.card = 0 := rfl
    rw [h0, Nat.zero_add]

/-- Witness for the amended C3 at a concrete one-event run. -/
theorem ledger_monotone_and_size_witness :
    ((stateBefore [alice, bob] ordId ["m"] 0).ledger ⊆
        (stateBefore [alice, bob] ordId ["m"] 1).ledger)
    ∧ (seat_people [alice, bob] ordId ["m"]).ledger.card =
        sumContrib [alice, bob] ordId initState ["m"] :=
  ⟨(ledger_monotone_and_size [alice, bob] ordId ["m"]
      (fun _ l => List.Perm.refl l) (by decide)).1 0,
   (ledger_monotone_and_size [alice, bob] ordId ["m"]
      (fun _ l => List.Perm.refl l) (by decide)).2⟩

/-- Claim C5 is false of the code: the search's result depends on the
iteration order of the Python set of remaining people.  Two admissible
orders of the same two-person set (they are permutations of one another)
give different accepted arrangements. -/
theorem set_order_changes_result :
    find_arrangement [alice, bob] 2 [] ∅ = some [alice, bob]
    ∧ find_arrangement [bob, alice] 2 [] ∅ = some [bob, alice]
    ∧ [alice, bob].Perm [bob, alice]
    ∧ [alice, bob] ≠ [bob, alice] :=
  ⟨by decide, by decide, by decide, by decide⟩

/-- Indexing a rotated list, `getD` form. -/
theorem rotate_getD (l : List Person) (k i : Nat) (hi : i < l.length) :
    (l.rotate k).getD i personDefault = l.getD ((i + k) % l.length) personDefault := by
  have hl : i < (l.rotate k).length := by rw [List.length_rotate]; exact hi
  have hm : (i + k) % l.length < l.length := Nat.mod_lt _ (by omega)
  rw [List.getD_eq_get _ _ hl, List.getD_eq_get _ _ hm]
  exact List.get_rotate l k ⟨i, hl⟩

/-- Claim C4: the rotation-equivalence check accepts any arrangement
paired with any rotation of itself; it rejects arrangements of different
lengths and arrangements with different attendee name sets; and two empty
arrangements are equivalent. -/
theorem rotation_equivalence :
    (∀ (A : List Person) (k : Nat), are_arrangements_same A (A.rotate k) = true)
    ∧ (∀ (A B : List Person), A.length ≠ B.length →
        are_arrangements_same A B = false)
    ∧ (∀ (A B : List Person),
        (A.map Person.name).toFinset ≠ (B.map Person.name).toFinset →
        are_arrangements_same A B = false)
    ∧ are_arrangements_same [] [] = true := by
  refine ⟨?_, ?_, ?_, rfl⟩
  · intro A k
    unfold are_arrangements_same
    rw [List.length_rotate]
    rw [if_neg (by simp)]
    by_cases h0 : A.length = 0
    · rw [if_pos h0]
    · rw [if_neg h0]
      have hn : 0 < A.length := Nat.pos_of_ne_zero h0
      have hkn : k % A.length < A.length := Nat.mod_lt _ hn
      have hslt : (A.length - k % A.length) % A.length < A.length := Nat.mod_lt _ hn
      have hdm := Nat.div_add_mod k A.length
      have h1 : A.length - k % A.length + k = A.length + A.length * (k / A.length) := by
        omega
      have hs0 : ((A.length - k % A.length) % A.length + k) % A.length = 0 := by
        rw [Nat.mod_add_mod, h1, Nat.add_mul_mod_self_left, Nat.mod_self]
      rw [List.any_eq_true]
      refine ⟨(A.length - k % A.length) % A.length,
        List.mem_range.mpr hslt, ?_⟩
      rw [Bool.and_eq_true]
      constructor
      · rw [rotate_getD A k _ hslt, hs0]
        exact beq_self_eq_true _
      · rw [List.all_eq_true]
        intro i hi
        rw [List.mem_range] at hi
        rw [rotate_getD A k _ (Nat.mod_lt _ hn)]
        have hidx : (((A.length - k % A.length) % A.length + i) % A.length + k) %
            A.length = i := by
          rw [Nat.mod_add_mod]
          have hcomm : (A.length - k % A.length) % A.length + i + k =
              i + ((A.length - k % A.length) % A.length + k) := by omega
          rw [hcomm, Nat.add_mod, hs0, Nat.add_zero, Nat.mod_eq_of_lt hi,
            Nat.mod_eq_of_lt hi]
        rw [hidx]
        exact beq_self_eq_true _
  · intro A B hne
    unfold are_arrangements_same
    rw [if_pos hne]
  · intro A B hset
    by_cases hlen : A.length = B.length
    · unfold are_arrangements_same
      rw [if_neg (fun hc => hc hlen)]
      by_cases h0 : A.length = 0
      · exfalso
        apply hset
        have hB0 : B.length = 0 := by omega
        rw [List.length_eq_zero.mp h0, List.length_eq_zero.mp hB0]
      · rw [if_neg h0]
        by_contra hany
        rw [Bool.not_eq_false, List.any_eq_true] at hany
        obtain ⟨start, hstartmem, hcheck⟩ := hany
        rw [List.mem_range] at hstartmem
        rw [Bool.and_eq_true, List.all_eq_true] at hcheck
        obtain ⟨_, hall⟩ := hcheck
        apply hset
        have hn : 0 < A.length := Nat.pos_of_ne_zero h0
        ext x
        simp only [List.mem_toFinset, List.mem_map]
        constructor
        · rintro ⟨p, hp, rfl⟩
          obtain ⟨⟨i, hi⟩, hpi⟩ := List.mem_iff_get.mp hp
          have hmem : (i : Nat) ∈ List.range A.length := List.mem_range.mpr hi
          have := hall i hmem
          rw [beq_iff_eq] at this
          have hj : (start + i) % A.length < B.length := by
            rw [← hlen]
            exact Nat.mod_lt _ hn
          refine ⟨B.get ⟨(start + i) % A.length, hj⟩, List.get_mem _ _ _, ?_⟩
          rw [← List.getD_eq_get B personDefault hj, ← this,
            List.getD_eq_get A personDefault hi, hpi]
        · rintro ⟨q, hq, rfl⟩
          obtain ⟨⟨j, hj⟩, hqj⟩ := List.mem_iff_get.mp hq
          have hjA : j < A.length := by omega
          have hstartle : start ≤ A.length := le_of_lt hstartmem
          have hi : (j + A.length - start) % A.length < A.length := Nat.mod_lt _ hn
          have hmem : (j + A.length - start) % A.length ∈ List.range A.length :=
            List.mem_range.mpr hi
          have heq := hall _ hmem
          rw [beq_iff_eq] at heq
          have hidx : (start + (j + A.length - start) % A.length) % A.length = j := by
            rw [Nat.add_mod_mod]
            have hcomm : start + (j + A.length - start) = j + A.length := by omega
            rw [hcomm, Nat.add_mod_right]
            exact Nat.mod_eq_of_lt hjA
          rw [hidx] at heq
          refine ⟨A.get ⟨(j + A.length - start) % A.length, hi⟩, List.get_mem _ _ _, ?_⟩
          rw [← List.getD_eq_get A personDefault hi, heq,
            List.getD_eq_get B personDefault (by omega), hqj]
    · unfold are_arrangements_same
      rw [if_pos hlen]

/-- Witness for C4 at concrete arrangements. -/
theorem rotation_equivalence_witness :
    are_arrangements_same [alice, bob, carol] ([alice, bob, carol].rotate 2) = true
    ∧ are_arrangements_same [alice] [] = false
    ∧ are_arrangements_same [alice] [bob] = false
    ∧ are_arrangements_same [] [] = true :=
  ⟨rotation_equivalence.1 [alice, bob, carol] 2,
   rotation_equivalence.2.1 [alice] [] (by decide),
   rotation_equivalence.2.2.1 [alice] [bob] (by decide),
   rotation_equivalence.2.2.2⟩

/-- Claim C6: an event whose attendees are exactly three people of the same
sex, with no relations or preferences and an empty Adjacency Ledger, gets
no arrangement: the search fails and the event's plan is empty. -/
theorem three_same_sex_fails (people : List Person)
    (setOrd : String → List Person → List Person) (meal : String)
    (p1 p2 p3 : Person)
    (hperm : ∀ m l, (setOrd m l).Perm l)
    (hatt : attendeesOf people meal = [p1, p2, p3])
    (h21 : p2.sex = p1.sex) (h31 : p3.sex = p1.sex)
    (hr1 : p1.relations = []) (hr2 : p2.relations = []) (hr3 : p3.relations = [])
    (hq1 : p1.preferred = []) (hq2 : p2.preferred = []) (hq3 : p3.preferred = []) :
    find_arrangement (setOrd meal [p1, p2, p3]) 3 [] ∅ = none
    ∧ (seat_people people setOrd [meal]).plans = [(meal, [])]
    ∧ (seat_people people setOrd [meal]).ledger = ∅ := by
  have hordperm : (setOrd meal [p1, p2, p3]).Perm [p1, p2, p3] := hperm meal _
  have hlen : (setOrd meal [p1, p2, p3]).length = 3 := by
    rw [hordperm.length_eq]
    rfl
  have hall : ∀ p ∈ setOrd meal [p1, p2, p3], p.sex = p1.sex := by
    intro p hp
    have hmem := hordperm.mem_iff.mp hp
    simp only [List.mem_cons, List.not_mem_nil, or_false] at hmem
    rcases hmem with rfl | rfl | rfl
    · rfl
    · exact h21
    · exact h31
  have hfail : find_arrangement (setOrd meal [p1, p2, p3])
      (setOrd meal [p1, p2, p3]).length [] ∅ = none :=
    all_same_sex_fails _ [] ∅ p1.sex hall (by omega)
  rw [hlen] at hfail
  have hstep : mealStep people setOrd initState meal =
      (if dictHas initState.plans meal then initState
       else { initState with plans := dset initState.plans meal [] }) := by
    apply mealStep_fail
    · rw [hatt]; simp
    · rw [hatt]; simp
    · intro x xs hcon
      rw [hatt] at hcon
      have hcon' : find_arrangement (setOrd meal [p1, p2, p3]) 3 [] ∅ =
          some (x :: xs) := hcon
      rw [hfail] at hcon'
      exact Option.noConfusion hcon'
  have hdict : dictHas initState.plans meal = false := rfl
  have hseat : seat_people people setOrd [meal] =
      mealStep people setOrd initState meal := rfl
  refine ⟨hfail, ?_, ?_⟩
  · rw [hseat, hstep, if_neg (by simp [hdict])]
    rfl
  · rw [hseat, hstep, if_neg (by simp [hdict])]
    rfl

/-- Witness for C6: three concrete same-sex attendees. -/
theorem three_same_sex_fails_witness :
    find_arrangement (ordId "d" [wendy, willa, wren]) 3 [] ∅ = none
    ∧ (seat_people [wendy, willa, wren] ordId ["d"]).plans = [("d", [])]
    ∧ (seat_people [wendy, willa, wren] ordId ["d"]).ledger = ∅ :=
  three_same_sex_fails [wendy, willa, wren] ordId "d" wendy willa wren
    (fun _ l => List.Perm.refl l) (by decide) rfl rfl rfl rfl rfl rfl rfl rfl

/-- Counterexample to C7 as stated: at a concrete unrecognized sex value
the construction fails, but not with the `InvalidAttributeError` the claim
names: the code raises `ValueError`. -/
theorem person_make_not_invalid_attribute :
    isConstructionFailure (Person.make "x" "other" [] [] []) = true
    ∧ isInvalidAttributeFailure (Person.make "x" "other" [] [] []) = false :=
  ⟨by decide, by decide⟩

/-- Claim C7 (amended): a Person with an unrecognized sex value is a
construction failure surfaced to the caller as `ValueError` (the code has
no `InvalidAttributeError`); a recognized sex value does not raise. -/
theorem person_make_validation (name sex : String)
    (relations preferred meals : List String) :
    (sex ≠ "male" ∧ sex ≠ "female" →
      Person.make name sex relations preferred meals =
        Except.error (PyExn.valueError
          ("Invalid sex '" ++ sex ++ "' for person '" ++ name ++
           "'. Must be 'male' or 'female'.")))
    ∧ (sex = "male" ∨ sex = "female" →
      Person.make name sex relations preferred meals =
        Except.ok ⟨name, sex, relations, preferred, meals⟩) := by
  constructor
  · intro ⟨h1, h2⟩
    unfold Person.make
    rw [if_neg (by simp [h1, h2])]
  · rintro (rfl | rfl) <;> simp [Person.make]

/-- Witness for the amended C7: a failing and a succeeding construction. -/
theorem person_make_validation_witness :
    Person.make "x" "other" [] [] [] =
      Except.error (PyExn.valueError
        ("Invalid sex '" ++ "other" ++ "' for person '" ++ "x" ++
         "'. Must be 'male' or 'female'."))
    ∧ Person.make "Alice" "female" [] [] [] =
      Except.ok ⟨"Alice", "female", [], [], []⟩ :=
  ⟨(person_make_validation "x" "other" [] [] []).1 ⟨by decide, by decide⟩,
   (person_make_validation "Alice" "female" [] [] []).2 (Or.inr rfl)⟩

/-- Claim C8 (amended): when the search fails for an event with at least
two attendees, the planner leaves the Adjacency Ledger unchanged and
continues planning the remaining events in order; it records an empty list
as the event's plan when the event has no plan entry yet (a plan entry
left by an earlier same-named event is kept instead). -/
theorem search_failure_continues (people : List Person)
    (setOrd : String → List Person → List Person) (meals : List String)
    (i : Nat) (hi : i < meals.length)
    (h2 : 2 ≤ (attendeesOf people (meals.getD i "")).length)
    (hfail : searchAt people setOrd meals i = none) :
    (stateBefore people setOrd meals (i + 1)).ledger =
      (stateBefore people setOrd meals i).ledger
    ∧ (dictHas (stateBefore people setOrd meals i).plans (meals.getD i "") = false →
        dgetD (stateBefore people setOrd meals (i + 1)).plans (meals.getD i "") = [])
    ∧ seat_people people setOrd meals =
        (meals.drop (i + 1)).foldl (mealStep people setOrd)
          (stateBefore people setOrd meals (i + 1)) := by
  have hne := searchAt_none_inv hfail
  have hstep : mealStep people setOrd (stateBefore people setOrd meals i)
      (meals.getD i "") =
      (if dictHas (stateBefore people setOrd meals i).plans (meals.getD i "")
       then stateBefore people setOrd meals i
       else { stateBefore people setOrd meals i with
              plans := dset (stateBefore people setOrd meals i).plans
                (meals.getD i "") [] }) :=
    mealStep_fail people setOrd _ _ (by omega) (by omega) hne
  refine ⟨?_, ?_, ?_⟩
  · rw [stateBefore_succ people setOrd meals i hi, hstep]
    split_ifs <;> rfl
  · intro hd
    rw [stateBefore_succ people setOrd meals i hi, hstep, if_neg (by rw [hd]; simp)]
    exact dgetD_dset_self _ _ _
  · exact seat_people_eq_drop people setOrd meals (i + 1)

/-- Counterexample to C8 as stated: with two occurrences of the same event
name, the second occurrence's search fails (its only pair is already in
the ledger) yet the event's plan stays the earlier non-empty list — the
planner does not record an empty list for it. -/
theorem failed_event_keeps_old_plan_cex :
    searchAt [alice, bob] ordId ["m", "m"] 1 = none
    ∧ 2 ≤ (attendeesOf [alice, bob] (["m", "m"].getD 1 "")).length
    ∧ dgetD (seat_people [alice, bob] ordId ["m", "m"]).plans "m" = [[alice, bob]] :=
  ⟨by decide, by decide, by decide⟩

/-- Witness for the amended C8: a first event that fails (two same-sex
attendees) leaves the ledger unchanged, records an empty plan, and
planning continues. -/
theorem search_failure_continues_witness :
    ((stateBefore [alice, carol] ordId ["m"] 1).ledger =
      (stateBefore [alice, carol] ordId ["m"] 0).ledger)
    ∧ dgetD (stateBefore [alice, carol] ordId ["m"] 1).plans (["m"].getD 0 "") = []
    ∧ seat_people [alice, carol] ordId ["m"] =
        (["m"].drop 1).foldl (mealStep [alice, carol] ordId)
          (stateBefore [alice, carol] ordId ["m"] 1) :=
  ⟨(search_failure_continues [alice, carol] ordId ["m"] 0
      (by decide) (by decide) (by decide)).1,
   (search_failure_continues [alice, carol] ordId ["m"] 0
      (by decide) (by decide) (by decide)).2.1 (by decide),
   (search_failure_continues [alice, carol] ordId ["m"] 0
      (by decide) (by decide) (by decide)).2.2⟩

/-- Claim C9: an event with no attendees yields an empty plan entry, and
an event with exactly one attendee yields a plan entry with one
one-person arrangement; neither touches the ledger. -/
theorem trivial_event_plans (people : List Person)
    (setOrd : String → List Person → List Person) (meals : List String)
    (i : Nat) (hi : i < meals.length) :
    (attendeesOf people (meals.getD i "") = [] →
      dgetD (stateBefore people setOrd meals (i + 1)).plans (meals.getD i "") = []
      ∧ (stateBefore people setOrd meals (i + 1)).ledger =
          (stateBefore people setOrd meals i).ledger)
    ∧ (∀ p, attendeesOf people (meals.getD i "") = [p] →
      dgetD (stateBefore people setOrd meals (i + 1)).plans (meals.getD i "") = [[p]]
      ∧ (stateBefore people setOrd meals (i + 1)).ledger =
          (stateBefore people setOrd meals i).ledger) := by
  constructor
  · intro hatt
    rw [stateBefore_succ people setOrd meals i hi,
      mealStep_empty people setOrd _ _ hatt]
    exact ⟨dgetD_dset_self _ _ _, rfl⟩
  · intro p hatt
    rw [stateBefore_succ people setOrd meals i hi,
      mealStep_single people setOrd _ _ p hatt]
    exact ⟨dgetD_dset_self _ _ _, rfl⟩

/-- Witness for C9: a no-attendee event and a one-attendee event. -/
theorem trivial_event_plans_witness :
    (dgetD (stateBefore [alice] ordId ["z", "m"] 1).plans (["z", "m"].getD 0 "") = []
      ∧ (stateBefore [alice] ordId ["z", "m"] 1).ledger =
          (stateBefore [alice] ordId ["z", "m"] 0).ledger)
    ∧ (dgetD (stateBefore [alice] ordId ["z", "m"] 2).plans (["z", "m"].getD 1 "") = [[alice]]
      ∧ (stateBefore [alice] ordId ["z", "m"] 2).ledger =
          (stateBefore [alice] ordId ["z", "m"] 1).ledger) :=
  ⟨(trivial_event_plans [alice] ordId ["z", "m"] 0 (by decide)).1 (by decide),
   (trivial_event_plans [alice] ordId ["z", "m"] 1 (by decide)).2 alice (by decide)⟩

/-- Claim C10: for an event with exactly two attendees of the same sex the
search always fails, whatever the ledger: after the first placement uses
the same-sex budget, the wrap-around edge between the same two people
counts as a second same-sex adjacency. -/
theorem two_same_sex_fails (remaining : List Person) (a b : Person)
    (found : List (List Person)) (ledger : Finset (String × String))
    (hperm : remaining.Perm [a, b]) (hsex : a.sex = b.sex) :
    find_arrangement remaining 2 found ledger = none := by
  have hlen : remaining.length = 2 := by
    rw [hperm.length_eq]
    rfl
  have hall : ∀ p ∈ remaining, p.sex = a.sex := by
    intro p hp
    have hmem := hperm.mem_iff.mp hp
    simp only [List.mem_cons, List.not_mem_nil, or_false] at hmem
    rcases hmem with rfl | rfl
    · rfl
    · exact hsex.symm
  have hfail := all_same_sex_fails remaining found ledger a.sex hall (by omega)
  rw [hlen] at hfail
  exact hfail

/-- Witness for C10: two concrete same-sex attendees. -/
theorem two_same_sex_fails_witness :
    find_arrangement [alice, carol] 2 [] ∅ = none :=
  two_same_sex_fails [alice, carol] alice carol [] ∅ (by decide) rfl
